import Mathlib

/-!
# Verification of the Memora AR-navigation core

A shallow embedding, in Lean 4, of the pedestrian-dead-reckoning navigation
engine of the Memora repository:

* `BearingMath` — `normalizeAngle` from `src/utils/navigation.ts`;
* the heading-smoothing buffer (`headingBuffer` / `getSmoothedHeading`) from
  `src/hooks/useDeviceSensors.ts`;
* the beacon distance estimator (`estimateDistance`) from
  `src/hooks/useBeaconScanner.ts`;
* the session state machine of the `ARNavigation` component (step detection,
  beacon drift correction, arrival logic) from
  `src/components/patient/ARNavigation.tsx`;
* the calibration tracker from
  `src/components/patient/ARNavigation/CalibrationModal.tsx`.

JavaScript `number`s are modelled as exact rationals (`ℚ`); timestamps
(`Date.now()` values, milliseconds) as integers (`ℤ`).  Transcendental
floating-point operations (`Math.cos`, `Math.sin`, `Math.atan2`) are modelled
by their exact real counterparts, with `Math.atan2 y x = Complex.arg (x + y·i)`
(both have range `(-π, π]` and map `(0, 0)` to `0`).
-/

set_option maxRecDepth 100000

namespace Memora

/-! ## BearingMath (`src/utils/navigation.ts`)

The JavaScript `%` operator is the remainder operation that truncates toward zero:
`a % n = a - n * trunc (a / n)`, with the sign of the dividend. -/

/-- Truncation toward zero, as used by the JavaScript `%` operator.
Written with integer division on `Rat.num`/`Rat.den` so that it evaluates by
kernel reduction; `jsTrunc_of_nonneg`/`jsTrunc_of_neg` below identify it with
`⌊q⌋` resp. `⌈q⌉`. -/
def jsTrunc (q : ℚ) : ℤ :=
  if 0 ≤ q then q.num / q.den else -((-q).num / (-q).den)

/-- JavaScript remainder: `a % n = a - n * trunc (a / n)`. -/
def jsMod (a n : ℚ) : ℚ :=
  a - n * (jsTrunc (a / n) : ℚ)

/-- `normalizeAngle` (`src/utils/navigation.ts`):
`((angle + 180) % 360 + 360) % 360 - 180`. -/
def normalizeAngle (angle : ℚ) : ℚ :=
  jsMod (jsMod (angle + 180) 360 + 360) 360 - 180

/-! ## Heading smoothing (`src/hooks/useDeviceSensors.ts`)

`headingBuffer` is declared at **module scope**
(`const headingBuffer: number[] = []`), so a single array is created when the
module loads and is shared by every `useDeviceSensors` instance; no code path
resets it when an `ARNavigation` session is created or torn down.
`getSmoothedHeading` first mutates this buffer (wrap-reset check against the
arithmetic mean, push, shift when over capacity) and then returns the circular
mean of the buffer.  The buffer mutation is pure rational arithmetic and is
modelled by `pushHeading`; the returned value is modelled by `smoothedValue`. -/

def HEADING_SMOOTHING_BUFFER_SIZE : ℕ := 10

/-- The buffer mutation performed by `getSmoothedHeading`: if the buffer is
non-empty and the new sample differs from the arithmetic mean of the buffer
(`reduce sum / length`) by more than 180, clear the buffer; push the new
sample; if the length now exceeds the capacity, drop the oldest entry
(`shift()`). -/
def pushHeading (buf : List ℚ) (newHeading : ℚ) : List ℚ :=
  let buf1 :=
    if buf.length ≠ 0 ∧ 180 < |newHeading - buf.sum / (buf.length : ℚ)| then [] else buf
  let buf2 := buf1 ++ [newHeading]
  if HEADING_SMOOTHING_BUFFER_SIZE < buf2.length then buf2.tail else buf2

/-- The value returned by `getSmoothedHeading` for a given buffer state: the
circular mean — `atan2 (avgY, avgX)` of the averaged unit vectors, converted
to degrees, plus 360 if negative.  `Math.atan2 y x` is `Complex.arg (x + y·i)`. -/
noncomputable def smoothedValue (buf : List ℚ) : ℝ :=
  let sumX : ℝ := (buf.map (fun a : ℚ => Real.cos ((a : ℝ) * Real.pi / 180))).sum
  let sumY : ℝ := (buf.map (fun a : ℚ => Real.sin ((a : ℝ) * Real.pi / 180))).sum
  let avgX : ℝ := sumX / (buf.length : ℝ)
  let avgY : ℝ := sumY / (buf.length : ℝ)
  let avgDeg : ℝ := Complex.arg ((avgX : ℂ) + (avgY : ℂ) * Complex.I) * 180 / Real.pi
  if avgDeg < 0 then avgDeg + 360 else avgDeg

/-- The description of the smoothed heading in the spec (§4.2): "sum of unit
vectors at each buffered angle, then `atan2(sumSin, sumCos)` converted to
degrees and normalized into [0,360)".  Stated from the words of the spec (sums,
not averages) to be compared with the `smoothedValue` of the source. -/
noncomputable def circularMeanSpec (buf : List ℚ) : ℝ :=
  let sumCos : ℝ := (buf.map (fun a : ℚ => Real.cos ((a : ℝ) * Real.pi / 180))).sum
  let sumSin : ℝ := (buf.map (fun a : ℚ => Real.sin ((a : ℝ) * Real.pi / 180))).sum
  let deg : ℝ := Complex.arg ((sumCos : ℂ) + (sumSin : ℂ) * Complex.I) * 180 / Real.pi
  if deg < 0 then deg + 360 else deg

/-- Creating a new navigation session (mounting `ARNavigation`, which calls
`useDeviceSensors` afresh) allocates fresh React state, but the module-scope
`headingBuffer` is not touched by any mount/unmount code path: the buffer a
new session starts from is exactly the buffer the previous session left. -/
def newSessionBuffer (buf : List ℚ) : List ℚ := buf

/-- Feeding a stream of raw heading samples through the smoothing buffer. -/
def feedHeadings (buf : List ℚ) (hs : List ℚ) : List ℚ :=
  hs.foldl pushHeading buf

/-! ## Beacon scanner (`src/hooks/useBeaconScanner.ts`) -/

/-- Calibrated RSSI at 1 meter. -/
def TX_POWER : ℚ := -59

/-- How quickly signal fades. -/
def ENVIRONMENTAL_FACTOR : ℚ := 2

/-- `estimateDistance` (`src/hooks/useBeaconScanner.ts`):
```
if (rssi === 0) return -1.0;            // Cannot determine distance
const r = rssi * 1.0 / TX_POWER;
if (r < 1.0) return Math.pow(r, 10);
else return Math.pow(10, (TX_POWER - rssi) / (10 * ENVIRONMENTAL_FACTOR));
```
The far-field branch computes `10 ^ e` for a fractional exponent `e`, a
transcendental value with no exact rational counterpart; the embedding
abstracts that power function as the parameter `tenPow`.  Every theorem below
holds for **every** choice of `tenPow`, so no result depends on its value. -/
def estimateDistanceWith (tenPow : ℚ → ℚ) (rssi : ℚ) : ℚ :=
  if rssi = 0 then -1
  else if rssi * 1 / TX_POWER < 1 then (rssi * 1 / TX_POWER) ^ (10 : ℕ)
  else tenPow ((TX_POWER - rssi) / (10 * ENVIRONMENTAL_FACTOR))

/-- A beacon record as built by `handleAdvertisement` and consumed by
the drift-correction effect of `ARNavigation`: `{ id, name, rssi, distance }`,
where `name` is `device.name || null` and `distance = estimateDistance rssi`. -/
structure Beacon where
  id : String
  name : Option String
  rssi : ℚ
  distance : ℚ
deriving DecidableEq, Repr

/-! ## `ARNavigation` session state machine
(`src/components/patient/ARNavigation.tsx`)

React effects are modelled as an event-processing step function over the
component state.  Each execution of an effect body corresponds to one
event; an effect re-running with unchanged sensor values (e.g. after a
`navState` change) is represented by the same event being delivered again.
The Arrival Logic effect has dependency list `[steps]`, so it re-runs exactly
when `steps` changes; `processEvent` therefore applies `checkArrival` exactly
when the handled event changed `steps`. -/

def DESTINATION_BEARING : ℚ := 296

def TOTAL_STEPS : ℕ := 10

def ARRIVAL_THRESHOLD_STEPS : ℚ := 1 / 2

/-- Linear-acceleration magnitude threshold, m/s². -/
def STEP_THRESHOLD : ℚ := 9 / 5

/-- Cooldown to prevent double counting a single step, ms. -/
def STEP_LOCKOUT_MS : ℤ := 400

/-- Static checkpoint configuration entry. -/
structure Checkpoint where
  name : String
  step_checkpoint : ℕ
  proximity_m : ℚ
deriving DecidableEq, Repr

/-- `BEACON_CHECKPOINTS`: the single configured checkpoint. -/
def BEACON_CHECKPOINTS : List Checkpoint :=
  [{ name := "Memora-Hallway", step_checkpoint := 5, proximity_m := 3 / 2 }]

inductive NavState where
  | requestingPermissions
  | calibrating
  | navigating
  | arrived
deriving DecidableEq, Repr

/-- The React state and refs of a mounted `ARNavigation` component that the
claims are about: `navState`, `steps`, `lastStepTimeRef`, `isPotentialStepRef`,
`isCalibrated`. -/
structure SessionState where
  navState : NavState
  steps : ℕ
  lastStepTime : ℤ
  isPotentialStep : Bool
  isCalibrated : Bool
deriving DecidableEq, Repr

/-- Component state at mount: `REQUESTING_PERMISSIONS`, `useState(0)` steps,
`useRef(0)` last step time, `useRef(false)` potential-step flag. -/
def initState : SessionState :=
  { navState := NavState.requestingPermissions
    steps := 0
    lastStepTime := 0
    isPotentialStep := false
    isCalibrated := false }

/-- Events delivered to the effects of the component: the motion-permission grant,
the calibration-complete callback, one linear-acceleration sample (with the
`Date.now()` timestamp at which the Step Detection effect runs), and one
beacon-list update. -/
inductive Event where
  | permissionsGranted
  | calibrationComplete
  | accel (x y z : ℚ) (now : ℤ)
  | beacons (bs : List Beacon)
deriving Repr

/-- The Step Detection Logic effect.  The source compares
`Math.sqrt (x² + y² + z²)` against `STEP_THRESHOLD` and
`STEP_THRESHOLD * 0.7`; both thresholds and the magnitude are nonnegative and
`Real.sqrt` is strictly monotone on nonnegatives, so `sqrt s > t ↔ s > t²`:
the embedding compares the squared magnitude against the squared thresholds,
which keeps every comparison inside `ℚ`. -/
def stepDetect (s : SessionState) (x y z : ℚ) (now : ℤ) : SessionState :=
  if s.navState ≠ NavState.navigating then s
  else
    let magSq := x * x + y * y + z * z
    if now - s.lastStepTime < STEP_LOCKOUT_MS then s
    else if STEP_THRESHOLD ^ 2 < magSq ∧ s.isPotentialStep = false then
      { s with isPotentialStep := true }
    else if magSq < (STEP_THRESHOLD * (7 / 10)) ^ 2 ∧ s.isPotentialStep = true then
      { s with isPotentialStep := false
               lastStepTime := now
               steps := min (s.steps + 1) TOTAL_STEPS }
    else s

/-- One iteration of the Beacon Drift Correction loop body for one beacon:
look up a checkpoint carrying the name of the beacon, and when the beacon is closer
than the proximity radius of the checkpoint, snap `steps` forward via the
`setSteps` functional update. -/
def beaconApply (st : SessionState) (b : Beacon) : SessionState :=
  match BEACON_CHECKPOINTS.find? (fun cp => decide (b.name = some cp.name)) with
  | some cp =>
      if b.distance < cp.proximity_m then
        { st with steps := if st.steps < cp.step_checkpoint then cp.step_checkpoint else st.steps }
      else st
  | none => st

/-- The Beacon Drift Correction effect: early return unless `NAVIGATING` with
a non-empty beacon list, then the `for`-loop over the beacons. -/
def beaconCorrect (s : SessionState) (bs : List Beacon) : SessionState :=
  if s.navState ≠ NavState.navigating ∨ bs = [] then s
  else bs.foldl beaconApply s

/-- The Arrival Logic effect body:
`if (steps >= TOTAL_STEPS - ARRIVAL_THRESHOLD_STEPS) setNavState(ARRIVED)`. -/
def checkArrival (s : SessionState) : SessionState :=
  if (TOTAL_STEPS : ℚ) - ARRIVAL_THRESHOLD_STEPS ≤ (s.steps : ℚ) then
    { s with navState := NavState.arrived }
  else s

/-- Dispatch one event to the effect that consumes it.
`permissionsGranted` is the effect
`navState === REQUESTING_PERMISSIONS && permissionState === granted`;
`calibrationComplete` is `handleCalibrationComplete`, reachable only from the
`CalibrationModal` rendered in the `CALIBRATING` state. -/
def handleEvent (s : SessionState) : Event → SessionState
  | Event.permissionsGranted =>
      if s.navState = NavState.requestingPermissions then
        { s with navState := NavState.calibrating }
      else s
  | Event.calibrationComplete =>
      if s.navState = NavState.calibrating then
        { s with isCalibrated := true, navState := NavState.navigating }
      else s
  | Event.accel x y z now => stepDetect s x y z now
  | Event.beacons bs => beaconCorrect s bs

/-- Process one event, then run the Arrival Logic effect, whose dependency
list is `[steps]`: it re-runs exactly when the event changed `steps`. -/
def processEvent (s : SessionState) (e : Event) : SessionState :=
  let s' := handleEvent s e
  if s'.steps = s.steps then s' else checkArrival s'

/-- The state of a session after a list of events, starting at mount. -/
def runSession (evs : List Event) : SessionState :=
  evs.foldl processEvent initState

/-- Derived output: `stepsRemaining = Math.max(0, TOTAL_STEPS - steps)`. -/
def stepsRemaining (s : SessionState) : ℤ :=
  max 0 ((TOTAL_STEPS : ℤ) - (s.steps : ℤ))

/-- Number of events at which the session transitions from `NAVIGATING`
into `ARRIVED`. -/
def countArrivals : SessionState → List Event → ℕ
  | _, [] => 0
  | s, e :: evs =>
      (if s.navState = NavState.navigating ∧ (processEvent s e).navState = NavState.arrived
        then 1 else 0)
      + countArrivals (processEvent s e) evs

/-- The session invariant: the step count is clamped at `TOTAL_STEPS`, and
the session is `ARRIVED` exactly when the clamp has been reached. -/
def GoodState (s : SessionState) : Prop :=
  s.steps ≤ TOTAL_STEPS ∧ (s.navState = NavState.arrived ↔ TOTAL_STEPS ≤ s.steps)

/-! ## Calibration tracker
(`src/components/patient/ARNavigation/CalibrationModal.tsx`) -/

def TOTAL_SEGMENTS : ℕ := 12

/-- The `setTimeout` delay after which the skip button is shown, ms. -/
def CAL_SKIP_DELAY_MS : ℕ := 7000

/-- `Math.floor(heading / (360 / TOTAL_SEGMENTS))`. -/
def sector (heading : ℚ) : ℤ :=
  ⌊heading / (360 / (TOTAL_SEGMENTS : ℚ))⌋

/-- One heading sample: `setCoveredSegments(prev => new Set(prev).add(segment))`. -/
def calStep (cov : Finset ℤ) (heading : ℚ) : Finset ℤ :=
  insert (sector heading) cov

/-- The coverage set after a stream of (non-null) smoothed-heading samples. -/
def calRun (cov : Finset ℤ) (hs : List ℚ) : Finset ℤ :=
  hs.foldl calStep cov

/-- `progress = coveredSegments.size / TOTAL_SEGMENTS`. -/
def calProgress (cov : Finset ℤ) : ℚ :=
  (cov.card : ℚ) / (TOTAL_SEGMENTS : ℚ)

/-- `isComplete = progress >= 1`. -/
def calComplete (cov : Finset ℤ) : Prop :=
  1 ≤ calProgress cov

instance (cov : Finset ℤ) : Decidable (calComplete cov) :=
  inferInstanceAs (Decidable (1 ≤ calProgress cov))

/-- Number of rising edges of `isComplete` along a sample stream: the
completion effect has dependency `isComplete` and schedules `onComplete`
exactly when `isComplete` flips from `false` to `true`. -/
def completionFirings : Finset ℤ → List ℚ → ℕ
  | _, [] => 0
  | cov, h :: hs =>
      (if ¬calComplete cov ∧ calComplete (calStep cov h) then 1 else 0)
      + completionFirings (calStep cov h) hs

/-- Demo trace: permissions granted, calibration completed, then one clean
rise/drop acceleration cycle (magnitude² = 4 > 1.8², then 1 < (0.7·1.8)²),
well past the initial `lastStepTimeRef` of `0`. -/
def demoCycle1 : List Event :=
  [Event.permissionsGranted, Event.calibrationComplete,
   Event.accel 2 0 0 1000, Event.accel 1 0 0 1100]

/-- Two rise/drop cycles whose second confirmation sample arrives 300 ms
after the first confirmed step — inside the 400 ms lockout. -/
def demoCycle2Close : List Event :=
  demoCycle1 ++ [Event.accel 2 0 0 1200, Event.accel 1 0 0 1400]

/-- Two rise/drop cycles fully separated by more than the 400 ms lockout. -/
def demoCycle2Far : List Event :=
  demoCycle1 ++ [Event.accel 2 0 0 1600, Event.accel 1 0 0 1700]

/-- `n` clean step cycles: rise at `(i+1)·1000` ms, drop (confirmation) at
`(i+1)·1000 + 100` ms, so consecutive confirmations are 1000 ms apart. -/
def stepCycles (n : ℕ) : List Event :=
  (List.range n).flatMap (fun i =>
    [Event.accel 2 0 0 ((i + 1 : ℤ) * 1000), Event.accel 1 0 0 ((i + 1 : ℤ) * 1000 + 100)])

/-- A session that has confirmed nine steps and is inside the tenth cycle
(rise seen, drop still pending). -/
def trNine : List Event :=
  [Event.permissionsGranted, Event.calibrationComplete] ++ stepCycles 9
    ++ [Event.accel 2 0 0 10000]

/-- A session that confirms ten clean steps. -/
def trFull : List Event := trNine ++ [Event.accel 1 0 0 10100]

/-- The acceleration sample predicate of the sustained-vibration scenario:
the (squared) magnitude never drops below the (squared) lower confirmation
threshold `0.7 · STEP_THRESHOLD`. -/
def highSample : Event → Bool
  | Event.accel x y z _ => decide ((STEP_THRESHOLD * (7 / 10)) ^ 2 ≤ x * x + y * y + z * z)
  | _ => false

end Memora

namespace Memora

/-! ## Helper lemmas: BearingMath -/

theorem jsTrunc_of_nonneg (q : ℚ) (h : 0 ≤ q) : jsTrunc q = ⌊q⌋ := by
  rw [jsTrunc, if_pos h, ← Rat.floor_def]

theorem jsTrunc_of_neg (q : ℚ) (h : q < 0) : jsTrunc q = ⌈q⌉ := by
  rw [jsTrunc, if_neg (not_le.mpr h), ← Rat.floor_def, ← neg_neg (⌈q⌉), ← Int.floor_neg]

theorem jsMod_360_nonneg (a : ℚ) (h : 0 ≤ a) : 0 ≤ jsMod a 360 ∧ jsMod a 360 < 360 := by
  have hq : (0 : ℚ) ≤ a / 360 := by positivity
  rw [jsMod, jsTrunc_of_nonneg _ hq]
  have h1 : ((⌊a / 360⌋ : ℚ)) ≤ a / 360 := Int.floor_le _
  have h2 : a / 360 < (⌊a / 360⌋ : ℚ) + 1 := Int.lt_floor_add_one _
  constructor <;> [linarith; linarith]

theorem jsMod_360_neg (a : ℚ) (h : a < 0) : -360 < jsMod a 360 ∧ jsMod a 360 ≤ 0 := by
  have hq : a / 360 < 0 := by
    apply div_neg_of_neg_of_pos h
    norm_num
  rw [jsMod, jsTrunc_of_neg _ hq]
  have h1 : a / 360 ≤ ((⌈a / 360⌉ : ℚ)) := Int.le_ceil _
  have h2 : ((⌈a / 360⌉ : ℚ)) < a / 360 + 1 := Int.ceil_lt_add_one _
  constructor <;> [linarith; linarith]

theorem normalizeAngle_mem (angle : ℚ) :
    -180 ≤ normalizeAngle angle ∧ normalizeAngle angle < 180 := by
  rw [normalizeAngle]
  rcases le_or_lt 0 (angle + 180) with h | h
  · obtain ⟨h1, h2⟩ := jsMod_360_nonneg (angle + 180) h
    obtain ⟨h3, h4⟩ := jsMod_360_nonneg (jsMod (angle + 180) 360 + 360) (by linarith)
    constructor <;> linarith
  · obtain ⟨h1, h2⟩ := jsMod_360_neg (angle + 180) h
    obtain ⟨h3, h4⟩ := jsMod_360_nonneg (jsMod (angle + 180) 360 + 360) (by linarith)
    constructor <;> linarith

/-! ## Helper lemmas: the session state machine -/

/-- The arrival condition `steps ≥ TOTAL_STEPS - ARRIVAL_THRESHOLD_STEPS`
(i.e. `steps ≥ 9.5`) holds for an integer step count iff `steps ≥ 10`. -/
theorem arrivalCond_iff (n : ℕ) :
    (TOTAL_STEPS : ℚ) - ARRIVAL_THRESHOLD_STEPS ≤ (n : ℚ) ↔ TOTAL_STEPS ≤ n := by
  simp only [TOTAL_STEPS, ARRIVAL_THRESHOLD_STEPS]
  constructor
  · intro h
    by_contra hn
    push_neg at hn
    have h9 : (n : ℚ) ≤ 9 := by exact_mod_cast Nat.le_of_lt_succ hn
    push_cast at h
    linarith
  · intro h
    have h10 : (10 : ℚ) ≤ (n : ℚ) := by exact_mod_cast h
    push_cast
    linarith

theorem checkArrival_steps (s : SessionState) : (checkArrival s).steps = s.steps := by
  unfold checkArrival
  split <;> rfl

theorem stepDetect_navState (s : SessionState) (x y z : ℚ) (now : ℤ) :
    (stepDetect s x y z now).navState = s.navState := by
  unfold stepDetect
  dsimp only
  split_ifs <;> rfl

theorem stepDetect_steps_ge (s : SessionState) (x y z : ℚ) (now : ℤ)
    (h : s.steps ≤ TOTAL_STEPS) : s.steps ≤ (stepDetect s x y z now).steps := by
  unfold stepDetect
  simp only [TOTAL_STEPS] at h ⊢
  split_ifs <;> (try simp) <;> omega

theorem stepDetect_steps_le (s : SessionState) (x y z : ℚ) (now : ℤ)
    (h : s.steps ≤ TOTAL_STEPS) : (stepDetect s x y z now).steps ≤ TOTAL_STEPS := by
  unfold stepDetect
  simp only [TOTAL_STEPS] at h ⊢
  split_ifs <;> (try simp) <;> omega

theorem beaconApply_navState (st : SessionState) (b : Beacon) :
    (beaconApply st b).navState = st.navState := by
  unfold beaconApply
  rcases hf : List.find? (fun cp => decide (b.name = some cp.name)) BEACON_CHECKPOINTS
    with _ | cp <;> simp only [hf]
  split_ifs <;> rfl

theorem beaconApply_steps_ge (st : SessionState) (b : Beacon) :
    st.steps ≤ (beaconApply st b).steps := by
  unfold beaconApply
  rcases hf : List.find? (fun cp => decide (b.name = some cp.name)) BEACON_CHECKPOINTS
    with _ | cp <;> simp only [hf]
  · exact le_refl _
  · split_ifs <;> (try simp) <;> omega

theorem beaconApply_steps_le (st : SessionState) (b : Beacon)
    (h : st.steps ≤ TOTAL_STEPS) : (beaconApply st b).steps ≤ TOTAL_STEPS := by
  unfold beaconApply
  rcases hf : List.find? (fun cp => decide (b.name = some cp.name)) BEACON_CHECKPOINTS
    with _ | cp <;> simp only [hf]
  · exact h
  · have hmem := List.mem_of_find?_eq_some hf
    have hcp : cp.step_checkpoint ≤ TOTAL_STEPS := by
      simp only [BEACON_CHECKPOINTS, List.mem_singleton] at hmem
      subst hmem
      simp [TOTAL_STEPS]
    simp only [TOTAL_STEPS] at h hcp ⊢
    split_ifs <;> (try simp) <;> omega

theorem beaconFold_navState (bs : List Beacon) :
    ∀ st : SessionState, (bs.foldl beaconApply st).navState = st.navState := by
  induction bs with
  | nil => intro st; rfl
  | cons b bs ih =>
      intro st
      rw [List.foldl_cons, ih, beaconApply_navState]

theorem beaconFold_steps_ge (bs : List Beacon) :
    ∀ st : SessionState, st.steps ≤ (bs.foldl beaconApply st).steps := by
  induction bs with
  | nil => intro st; exact le_refl _
  | cons b bs ih =>
      intro st
      rw [List.foldl_cons]
      exact le_trans (beaconApply_steps_ge st b) (ih _)

theorem beaconFold_steps_le (bs : List Beacon) :
    ∀ st : SessionState, st.steps ≤ TOTAL_STEPS → (bs.foldl beaconApply st).steps ≤ TOTAL_STEPS := by
  induction bs with
  | nil => intro st h; exact h
  | cons b bs ih =>
      intro st h
      rw [List.foldl_cons]
      exact ih _ (beaconApply_steps_le st b h)

theorem handleEvent_navState_arrived {s : SessionState} {e : Event}
    (h : (handleEvent s e).navState = NavState.arrived) : s.navState = NavState.arrived := by
  cases e with
  | permissionsGranted =>
      simp only [handleEvent] at h
      by_cases hc : s.navState = NavState.requestingPermissions
      · rw [if_pos hc] at h
        exact absurd h (by simp)
      · rwa [if_neg hc] at h
  | calibrationComplete =>
      simp only [handleEvent] at h
      by_cases hc : s.navState = NavState.calibrating
      · rw [if_pos hc] at h
        exact absurd h (by simp)
      · rwa [if_neg hc] at h
  | accel x y z now =>
      simp only [handleEvent] at h
      rwa [stepDetect_navState] at h
  | beacons bs =>
      simp only [handleEvent] at h
      unfold beaconCorrect at h
      split_ifs at h with hc
      · exact h
      · rwa [beaconFold_navState] at h

theorem handleEvent_arrived_fix {s : SessionState} (e : Event)
    (h : s.navState = NavState.arrived) : handleEvent s e = s := by
  cases e with
  | permissionsGranted =>
      simp only [handleEvent]
      rw [if_neg (by rw [h]; simp)]
  | calibrationComplete =>
      simp only [handleEvent]
      rw [if_neg (by rw [h]; simp)]
  | accel x y z now =>
      simp only [handleEvent]
      unfold stepDetect
      rw [if_pos (by rw [h]; simp)]
  | beacons bs =>
      simp only [handleEvent]
      unfold beaconCorrect
      rw [if_pos (Or.inl (by rw [h]; simp))]

theorem handleEvent_steps_change {s : SessionState} {e : Event}
    (h : (handleEvent s e).steps ≠ s.steps) :
    (handleEvent s e).navState = s.navState ∧ s.navState = NavState.navigating := by
  cases e with
  | permissionsGranted =>
      exfalso
      apply h
      simp only [handleEvent]
      split_ifs <;> rfl
  | calibrationComplete =>
      exfalso
      apply h
      simp only [handleEvent]
      split_ifs <;> rfl
  | accel x y z now =>
      refine ⟨stepDetect_navState s x y z now, ?_⟩
      by_contra hnav
      apply h
      simp only [handleEvent]
      unfold stepDetect
      rw [if_pos hnav]
  | beacons bs =>
      constructor
      · simp only [handleEvent]
        unfold beaconCorrect
        split_ifs with hc
        · rfl
        · exact beaconFold_navState bs s
      · by_contra hnav
        apply h
        simp only [handleEvent]
        unfold beaconCorrect
        rw [if_pos (Or.inl hnav)]

theorem handleEvent_steps_ge {s : SessionState} (e : Event)
    (h : s.steps ≤ TOTAL_STEPS) : s.steps ≤ (handleEvent s e).steps := by
  cases e with
  | permissionsGranted =>
      simp only [handleEvent]
      split_ifs <;> exact le_refl _
  | calibrationComplete =>
      simp only [handleEvent]
      split_ifs <;> exact le_refl _
  | accel x y z now => exact stepDetect_steps_ge s x y z now h
  | beacons bs =>
      simp only [handleEvent]
      unfold beaconCorrect
      split_ifs with hc
      · exact le_refl _
      · exact beaconFold_steps_ge bs s

theorem handleEvent_steps_le {s : SessionState} (e : Event)
    (h : s.steps ≤ TOTAL_STEPS) : (handleEvent s e).steps ≤ TOTAL_STEPS := by
  cases e with
  | permissionsGranted =>
      simp only [handleEvent]
      split_ifs <;> exact h
  | calibrationComplete =>
      simp only [handleEvent]
      split_ifs <;> exact h
  | accel x y z now => exact stepDetect_steps_le s x y z now h
  | beacons bs =>
      simp only [handleEvent]
      unfold beaconCorrect
      split_ifs with hc
      · exact h
      · exact beaconFold_steps_le bs s h

theorem goodState_init : GoodState initState := by
  constructor <;> simp [initState, TOTAL_STEPS]

theorem processEvent_arrived {s : SessionState} (e : Event)
    (h : s.navState = NavState.arrived) : processEvent s e = s := by
  unfold processEvent
  rw [handleEvent_arrived_fix e h]
  simp

theorem goodState_process {s : SessionState} (hg : GoodState s) (e : Event) :
    GoodState (processEvent s e) := by
  obtain ⟨hle, hiff⟩ := hg
  unfold processEvent
  by_cases hst : (handleEvent s e).steps = s.steps
  · rw [if_pos hst]
    refine ⟨by rw [hst]; exact hle, ?_, ?_⟩
    · intro h
      rw [hst]
      exact hiff.mp (handleEvent_navState_arrived h)
    · intro h
      rw [hst] at h
      have harr := hiff.mpr h
      rw [handleEvent_arrived_fix e harr]
      exact harr
  · rw [if_neg hst]
    obtain ⟨hnavEq, hnav⟩ := handleEvent_steps_change hst
    have hle' : (handleEvent s e).steps ≤ TOTAL_STEPS := handleEvent_steps_le e hle
    unfold checkArrival
    by_cases hc : (TOTAL_STEPS : ℚ) - ARRIVAL_THRESHOLD_STEPS ≤ ((handleEvent s e).steps : ℚ)
    · rw [if_pos hc]
      exact ⟨hle', fun _ => (arrivalCond_iff _).mp hc, fun _ => rfl⟩
    · rw [if_neg hc]
      refine ⟨hle', ?_, ?_⟩
      · intro h
        exfalso
        apply hst
        rw [handleEvent_arrived_fix e (handleEvent_navState_arrived h)]
      · intro h10
        exact absurd ((arrivalCond_iff _).mpr h10) hc

theorem goodState_fold (evs : List Event) :
    ∀ s : SessionState, GoodState s → GoodState (evs.foldl processEvent s) := by
  induction evs with
  | nil => intro s h; exact h
  | cons e evs ih =>
      intro s h
      rw [List.foldl_cons]
      exact ih _ (goodState_process h e)

theorem goodState_run (evs : List Event) : GoodState (runSession evs) :=
  goodState_fold evs initState goodState_init

theorem processEvent_steps_ge {s : SessionState} (e : Event)
    (h : s.steps ≤ TOTAL_STEPS) : s.steps ≤ (processEvent s e).steps := by
  unfold processEvent
  by_cases hst : (handleEvent s e).steps = s.steps
  · rw [if_pos hst, hst]
  · rw [if_neg hst, checkArrival_steps]
    exact handleEvent_steps_ge e h

theorem steps_mono_fold (evs : List Event) :
    ∀ s : SessionState, GoodState s → s.steps ≤ (evs.foldl processEvent s).steps := by
  induction evs with
  | nil => intro s _; exact le_refl _
  | cons e evs ih =>
      intro s hg
      rw [List.foldl_cons]
      exact le_trans (processEvent_steps_ge e hg.1) (ih _ (goodState_process hg e))

theorem fold_arrived (evs : List Event) :
    ∀ s : SessionState, s.navState = NavState.arrived → evs.foldl processEvent s = s := by
  induction evs with
  | nil => intro s _; rfl
  | cons e evs ih =>
      intro s h
      rw [List.foldl_cons, processEvent_arrived e h, ih s h]

/-- Any transition into `ARRIVED` happens from the `NAVIGATING` state. -/
theorem transition_from_navigating {s : SessionState} {e : Event}
    (h1 : s.navState ≠ NavState.arrived)
    (h2 : (processEvent s e).navState = NavState.arrived) :
    s.navState = NavState.navigating := by
  unfold processEvent at h2
  by_cases hst : (handleEvent s e).steps = s.steps
  · rw [if_pos hst] at h2
    exact absurd (handleEvent_navState_arrived h2) h1
  · exact (handleEvent_steps_change hst).2

theorem countArrivals_eq (evs : List Event) :
    ∀ s : SessionState, GoodState s →
      countArrivals s evs =
        if (evs.foldl processEvent s).navState = NavState.arrived ∧ s.navState ≠ NavState.arrived
        then 1 else 0 := by
  induction evs with
  | nil =>
      intro s _
      simp [countArrivals]
  | cons e evs ih =>
      intro s hg
      rw [List.foldl_cons]
      show (if s.navState = NavState.navigating ∧
              (processEvent s e).navState = NavState.arrived then 1 else 0)
            + countArrivals (processEvent s e) evs = _
      by_cases harr : s.navState = NavState.arrived
      · have hfix := processEvent_arrived e harr
        rw [hfix, ih s hg]
        have hA : ¬(s.navState = NavState.navigating ∧ s.navState = NavState.arrived) := by
          rintro ⟨hnav, -⟩
          rw [harr] at hnav
          exact absurd hnav (by simp)
        have hB : ¬((evs.foldl processEvent s).navState = NavState.arrived
            ∧ s.navState ≠ NavState.arrived) := by
          rintro ⟨-, hne⟩
          exact hne harr
        simp only [if_neg hA, if_neg hB]
      · have hg2 : GoodState (processEvent s e) := goodState_process hg e
        by_cases harr2 : (processEvent s e).navState = NavState.arrived
        · have hnav := transition_from_navigating harr harr2
          rw [if_pos ⟨hnav, harr2⟩, ih _ hg2, if_neg (by simp [harr2]),
            fold_arrived evs _ harr2, if_pos ⟨harr2, harr⟩]
        · rw [if_neg (by rintro ⟨-, hx⟩; exact harr2 hx), ih _ hg2]
          have : ((evs.foldl processEvent (processEvent s e)).navState = NavState.arrived
                ∧ (processEvent s e).navState ≠ NavState.arrived)
              ↔ ((evs.foldl processEvent (processEvent s e)).navState = NavState.arrived
                ∧ s.navState ≠ NavState.arrived) := by
            constructor
            · rintro ⟨hf, -⟩; exact ⟨hf, harr⟩
            · rintro ⟨hf, -⟩; exact ⟨hf, harr2⟩
          rw [if_congr this rfl rfl]
          simp

/-- Processing one acceleration event while `NAVIGATING` whose (squared)
magnitude never reaches below the lower confirmation threshold leaves the
step count unchanged and the session `NAVIGATING`. -/
theorem high_accel_fix {s : SessionState} {x y z : ℚ} {t : ℤ}
    (hnav : s.navState = NavState.navigating)
    (hh : (STEP_THRESHOLD * (7 / 10)) ^ 2 ≤ x * x + y * y + z * z) :
    (processEvent s (Event.accel x y z t)).steps = s.steps ∧
      (processEvent s (Event.accel x y z t)).navState = NavState.navigating := by
  have hstep : (stepDetect s x y z t).steps = s.steps := by
    unfold stepDetect
    rw [if_neg (by simp [hnav])]
    dsimp only
    split_ifs with h1 h2 h3
    · rfl
    · rfl
    · exact absurd h3.1 (not_lt.mpr hh)
    · rfl
  have hnav' : (stepDetect s x y z t).navState = s.navState := stepDetect_navState s x y z t
  unfold processEvent
  simp only [handleEvent]
  rw [if_pos hstep]
  exact ⟨hstep, by rw [hnav']; exact hnav⟩

theorem high_fold_fix (evs : List Event) :
    ∀ s : SessionState, s.navState = NavState.navigating → (∀ e ∈ evs, highSample e = true) →
      (evs.foldl processEvent s).steps = s.steps := by
  induction evs with
  | nil => intro s _ _; rfl
  | cons e evs ih =>
      intro s hnav hhigh
      have hhead := hhigh e (List.mem_cons_self e evs)
      cases e with
      | permissionsGranted => exact absurd hhead (by simp [highSample])
      | calibrationComplete => exact absurd hhead (by simp [highSample])
      | beacons bs => exact absurd hhead (by simp [highSample])
      | accel x y z t =>
          have hh : (STEP_THRESHOLD * (7 / 10)) ^ 2 ≤ x * x + y * y + z * z := by
            simpa [highSample] using hhead
          obtain ⟨hsteps, hnav'⟩ := high_accel_fix hnav hh
          rw [List.foldl_cons,
            ih _ hnav' (fun e' he' => hhigh e' (List.mem_cons_of_mem _ he')), hsteps]

/-! ## Calibration helper lemmas -/

theorem sector_bound {h : ℚ} (h0 : 0 ≤ h) (h360 : h < 360) :
    0 ≤ sector h ∧ sector h < 12 := by
  unfold sector
  have h30 : (360 : ℚ) / ((TOTAL_SEGMENTS : ℕ) : ℚ) = 30 := by
    norm_num [TOTAL_SEGMENTS]
  rw [h30]
  constructor
  · exact Int.floor_nonneg.mpr (by positivity)
  · exact Int.floor_lt.mpr (by push_cast; linarith)

theorem calComplete_mono {cov : Finset ℤ} {h : ℚ} (hc : calComplete cov) :
    calComplete (calStep cov h) := by
  unfold calComplete calProgress at hc ⊢
  unfold calStep
  have hcard : cov.card ≤ (insert (sector h) cov).card :=
    Finset.card_le_card (Finset.subset_insert _ _)
  have h12 : (0 : ℚ) < ((TOTAL_SEGMENTS : ℕ) : ℚ) := by norm_num [TOTAL_SEGMENTS]
  rw [le_div_iff h12] at hc ⊢
  calc 1 * ((TOTAL_SEGMENTS : ℕ) : ℚ) ≤ (cov.card : ℚ) := hc
    _ ≤ ((insert (sector h) cov).card : ℚ) := by exact_mod_cast hcard

theorem calComplete_run (hs : List ℚ) :
    ∀ cov : Finset ℤ, calComplete cov → calComplete (calRun cov hs) := by
  induction hs with
  | nil => intro cov hc; exact hc
  | cons h hs ih =>
      intro cov hc
      exact ih (calStep cov h) (calComplete_mono hc)

theorem completionFirings_complete (hs : List ℚ) :
    ∀ cov : Finset ℤ, calComplete cov → completionFirings cov hs = 0 := by
  induction hs with
  | nil => intro cov _; rfl
  | cons h hs ih =>
      intro cov hc
      show (if ¬calComplete cov ∧ calComplete (calStep cov h) then 1 else 0)
          + completionFirings (calStep cov h) hs = 0
      rw [if_neg (by rintro ⟨hn, -⟩; exact hn hc), ih _ (calComplete_mono hc)]

theorem completionFirings_eq (hs : List ℚ) :
    ∀ cov : Finset ℤ,
      completionFirings cov hs =
        if calComplete (calRun cov hs) ∧ ¬calComplete cov then 1 else 0 := by
  induction hs with
  | nil =>
      intro cov
      show 0 = if calComplete cov ∧ ¬calComplete cov then 1 else 0
      rw [if_neg (by rintro ⟨hc, hn⟩; exact hn hc)]
  | cons h hs ih =>
      intro cov
      show (if ¬calComplete cov ∧ calComplete (calStep cov h) then 1 else 0)
          + completionFirings (calStep cov h) hs
        = if calComplete (calRun (calStep cov h) hs) ∧ ¬calComplete cov then 1 else 0
      by_cases hc : calComplete cov
      · rw [if_neg (by rintro ⟨hn, -⟩; exact hn hc),
          completionFirings_complete hs _ (calComplete_mono hc),
          if_neg (by rintro ⟨-, hn⟩; exact hn hc)]
      · by_cases hc2 : calComplete (calStep cov h)
        · rw [if_pos ⟨hc, hc2⟩, completionFirings_complete hs _ hc2,
            if_pos ⟨calComplete_run hs _ hc2, hc⟩]
        · rw [if_neg (by rintro ⟨-, hx⟩; exact hc2 hx), ih]
          have heq : (calComplete (calRun (calStep cov h) hs) ∧ ¬calComplete (calStep cov h))
              ↔ (calComplete (calRun (calStep cov h) hs) ∧ ¬calComplete cov) := by
            constructor
            · rintro ⟨hf, -⟩; exact ⟨hf, hc⟩
            · rintro ⟨hf, -⟩; exact ⟨hf, hc2⟩
          rw [if_congr heq rfl rfl]
          simp

theorem calRun_forall (hs : List ℚ) (P : ℤ → Prop) :
    ∀ cov : Finset ℤ, (∀ h ∈ hs, P (sector h)) → (∀ i ∈ cov, P i) →
      ∀ i ∈ calRun cov hs, P i := by
  induction hs with
  | nil => intro cov _ hcov i hi; exact hcov i hi
  | cons h hs ih =>
      intro cov hsec hcov i hi
      refine ih (calStep cov h) (fun a ha => hsec a (List.mem_cons_of_mem h ha)) ?_ i hi
      intro j hj
      rcases Finset.mem_insert.mp hj with rfl | hj'
      · exact hsec h (List.mem_cons_self h hs)
      · exact hcov j hj'

theorem mem_calRun (hs : List ℚ) :
    ∀ (cov : Finset ℤ) (i : ℤ), (i ∈ cov ∨ ∃ h ∈ hs, sector h = i) → i ∈ calRun cov hs := by
  induction hs with
  | nil =>
      intro cov i hi
      rcases hi with hmem | ⟨a, ha, -⟩
      · exact hmem
      · exact absurd ha (by simp)
  | cons h hs ih =>
      intro cov i hi
      refine ih (calStep cov h) i ?_
      rcases hi with hmem | ⟨a, ha, hsec⟩
      · exact Or.inl (Finset.mem_insert_of_mem hmem)
      · rcases List.mem_cons.mp ha with rfl | hin
        · exact Or.inl (by rw [← hsec]; exact Finset.mem_insert_self _ _)
        · exact Or.inr ⟨a, hin, hsec⟩

/-! ## Claim theorems -/

/-- C2 (counterexample): the claim "`normalize(x)` lies in `(-180, 180]` and
`normalize(180) = 180`" is false on the source: `normalizeAngle 180`
evaluates to `-180`, which is not `180` and lies outside `(-180, 180]`. -/
theorem c2_normalize_cex :
    normalizeAngle 180 = -180 ∧ normalizeAngle 180 ≠ 180 ∧
      ¬(-180 < normalizeAngle 180 ∧ normalizeAngle 180 ≤ 180) := by
  with_unfolding_all decide

/-- C2 (amended): for every rational input `x`, `normalizeAngle x` lies in
the half-open interval `[-180, 180)`, and `normalizeAngle 180 = -180`
(not `180`). -/
theorem c2_normalize_range :
    (∀ x : ℚ, -180 ≤ normalizeAngle x ∧ normalizeAngle x < 180) ∧
      normalizeAngle 180 = -180 := by
  exact ⟨normalizeAngle_mem, by with_unfolding_all decide⟩

/-- C3: in every session (a) the state is `ARRIVED` iff the step count
satisfies `steps ≥ TOTAL_STEPS - ARRIVAL_THRESHOLD_STEPS` (= 9.5, reached on
the 10th step), (b) the `NAVIGATING → ARRIVED` transition happens exactly
once — `countArrivals` equals 1 when the session arrived and 0 otherwise,
(c) any transition into `ARRIVED` happens from `NAVIGATING`,
(d) `stepsRemaining = max(0, TOTAL_STEPS - steps)`, reaching 0 at arrival. -/
theorem c3_arrival : ∀ (evs : List Event) (e : Event),
    ((runSession evs).navState = NavState.arrived ↔
      (TOTAL_STEPS : ℚ) - ARRIVAL_THRESHOLD_STEPS ≤ ((runSession evs).steps : ℚ)) ∧
    countArrivals initState evs
      = (if (runSession evs).navState = NavState.arrived then 1 else 0) ∧
    ((runSession evs).navState ≠ NavState.arrived →
      (processEvent (runSession evs) e).navState = NavState.arrived →
      (runSession evs).navState = NavState.navigating) ∧
    stepsRemaining (runSession evs)
      = max 0 ((TOTAL_STEPS : ℤ) - ((runSession evs).steps : ℤ)) ∧
    ((runSession evs).navState = NavState.arrived → stepsRemaining (runSession evs) = 0) := by
  intro evs e
  have hg := goodState_run evs
  refine ⟨?_, ?_, fun h1 h2 => transition_from_navigating h1 h2, rfl, ?_⟩
  · exact hg.2.trans (arrivalCond_iff _).symm
  · rw [show countArrivals initState evs
        = if (evs.foldl processEvent initState).navState = NavState.arrived
            ∧ initState.navState ≠ NavState.arrived then 1 else 0
        from countArrivals_eq evs initState goodState_init]
    have heq : ((evs.foldl processEvent initState).navState = NavState.arrived
          ∧ initState.navState ≠ NavState.arrived)
        ↔ (runSession evs).navState = NavState.arrived := by
      unfold runSession
      simp [initState]
    rw [if_congr heq rfl rfl]
  · intro harr
    have h10 := hg.2.mp harr
    have hle := hg.1
    unfold stepsRemaining
    simp only [TOTAL_STEPS] at h10 hle ⊢
    omega

/-- C3 witness: a session with nine confirmed steps and a pending rise is
still `NAVIGATING` (and the confirming sample transitions it into
`ARRIVED`); after the full ten-step trace, `stepsRemaining` is 0. -/
theorem c3_arrival_witness :
    (runSession trNine).navState = NavState.navigating ∧
      stepsRemaining (runSession trFull) = 0 := by
  constructor
  · exact (c3_arrival trNine (Event.accel 1 0 0 10100)).2.2.1
      (by with_unfolding_all decide) (by with_unfolding_all decide)
  · exact (c3_arrival trFull Event.permissionsGranted).2.2.2.2
      (by with_unfolding_all decide)

/-- C4: while `NAVIGATING`, (a) one clean rise-above/drop-below cycle
confirms exactly one step; (b) a second cycle whose confirmation sample
arrives within the 400 ms lockout confirms nothing (one step total);
(c) a second cycle after the lockout confirms a second step (two total);
(d) a sample arriving during the lockout causes no state change at all;
(e) a trace whose magnitude never drops below `0.7 · STEP_THRESHOLD`
confirms no step. -/
theorem c4_step_detector :
    (runSession demoCycle1).steps = 1 ∧
    (runSession demoCycle2Close).steps = 1 ∧
    (runSession demoCycle2Far).steps = 2 ∧
    (∀ (s : SessionState) (x y z : ℚ) (t : ℤ),
      s.navState = NavState.navigating → t - s.lastStepTime < STEP_LOCKOUT_MS →
      processEvent s (Event.accel x y z t) = s) ∧
    (∀ (s : SessionState) (evs : List Event),
      s.navState = NavState.navigating → (∀ e ∈ evs, highSample e = true) →
      (evs.foldl processEvent s).steps = s.steps) := by
  refine ⟨by with_unfolding_all decide, by with_unfolding_all decide,
    by with_unfolding_all decide, ?_, fun s evs h1 h2 => high_fold_fix evs s h1 h2⟩
  intro s x y z t h1 h2
  have hfix : handleEvent s (Event.accel x y z t) = s := by
    simp only [handleEvent]
    unfold stepDetect
    rw [if_neg (by simp [h1])]
    dsimp only
    rw [if_pos h2]
  unfold processEvent
  rw [hfix]
  simp

/-- C4 witness: the lockout and sustained-vibration clauses instantiated on
a freshly-calibrated `NAVIGATING` state. -/
theorem c4_step_detector_witness :
    processEvent
        { navState := NavState.navigating, steps := 0, lastStepTime := 0,
          isPotentialStep := false, isCalibrated := true }
        (Event.accel 2 0 0 100)
      = { navState := NavState.navigating, steps := 0, lastStepTime := 0,
          isPotentialStep := false, isCalibrated := true } ∧
    (([Event.accel 2 0 0 1000, Event.accel 2 0 0 1500]).foldl processEvent
        { navState := NavState.navigating, steps := 0, lastStepTime := 0,
          isPotentialStep := false, isCalibrated := true }).steps = 0 := by
  constructor
  · exact c4_step_detector.2.2.2.1 _ 2 0 0 100 rfl (by with_unfolding_all decide)
  · exact c4_step_detector.2.2.2.2 _ _ rfl (by with_unfolding_all decide)

/-- C5: for a beacon observation with a known distance whose name matches the
configured checkpoint and whose distance is below the proximity radius,
processed while `NAVIGATING`: if the current step count is below the
step value of the checkpoint (5) it is set to exactly 5; otherwise the observation
leaves the step count unchanged.  Concretely, from `steps = 2` an observation
at distance 1.0 m yields `steps = 5`, and from `steps = 7` it leaves 7. -/
theorem c5_checkpoint_correction :
    (∀ (s : SessionState) (b : Beacon),
      s.navState = NavState.navigating → b.name = some "Memora-Hallway" →
      b.rssi ≠ 0 → b.distance < 3 / 2 →
      ((s.steps < 5 → (processEvent s (Event.beacons [b])).steps = 5) ∧
       (5 ≤ s.steps → (processEvent s (Event.beacons [b])).steps = s.steps))) ∧
    (processEvent
        { navState := NavState.navigating, steps := 2, lastStepTime := 0,
          isPotentialStep := false, isCalibrated := true }
        (Event.beacons [⟨"b1", some "Memora-Hallway", -50, 1⟩])).steps = 5 ∧
    (processEvent
        { navState := NavState.navigating, steps := 7, lastStepTime := 0,
          isPotentialStep := false, isCalibrated := true }
        (Event.beacons [⟨"b1", some "Memora-Hallway", -50, 1⟩])).steps = 7 := by
  refine ⟨?_, by with_unfolding_all decide, by with_unfolding_all decide⟩
  intro s b hnav hname hrssi hdist
  have hfind : List.find? (fun cp => decide (b.name = some cp.name)) BEACON_CHECKPOINTS
      = some { name := "Memora-Hallway", step_checkpoint := 5, proximity_m := 3 / 2 } := by
    simp [BEACON_CHECKPOINTS, List.find?, hname]
  have happ : beaconApply s b = { s with steps := if s.steps < 5 then 5 else s.steps } := by
    unfold beaconApply
    rw [hfind]
    dsimp only
    rw [if_pos hdist]
  have hcor : handleEvent s (Event.beacons [b])
      = { s with steps := if s.steps < 5 then 5 else s.steps } := by
    simp only [handleEvent]
    unfold beaconCorrect
    rw [if_neg (by simp [hnav]), List.foldl_cons, List.foldl_nil, happ]
  constructor
  · intro hlt
    unfold processEvent
    rw [hcor]
    dsimp only
    rw [if_pos hlt, if_neg (by omega)]
    unfold checkArrival
    rw [if_neg (by push_cast [TOTAL_STEPS, ARRIVAL_THRESHOLD_STEPS]; norm_num)]
  · intro hge
    unfold processEvent
    rw [hcor]
    dsimp only
    rw [if_neg (not_lt.mpr hge)]
    simp

/-- C5 witness: the forward-correction clause at `steps = 3` with a concrete
matching observation at distance 1.0 m. -/
theorem c5_checkpoint_correction_witness :
    (processEvent
        { navState := NavState.navigating, steps := 3, lastStepTime := 0,
          isPotentialStep := false, isCalibrated := true }
        (Event.beacons [⟨"b2", some "Memora-Hallway", -50, 1⟩])).steps = 5 := by
  exact (c5_checkpoint_correction.1 _ _ rfl rfl
    (by with_unfolding_all decide) (by with_unfolding_all decide)).1
    (by with_unfolding_all decide)

/-- C6: within a session the step count is monotonically non-decreasing:
every event the session processes (step detection, beacon correction,
permission/calibration transitions) leaves it equal or larger, and along any
extension of the event trace it never decreases. -/
theorem c6_steps_monotone : ∀ (evs more : List Event) (e : Event),
    (runSession evs).steps ≤ (processEvent (runSession evs) e).steps ∧
    (runSession evs).steps ≤ (runSession (evs ++ more)).steps := by
  intro evs more e
  have hg := goodState_run evs
  refine ⟨processEvent_steps_ge e hg.1, ?_⟩
  unfold runSession
  rw [List.foldl_append]
  exact steps_mono_fold more _ hg

/-- C10: in every session the step count never exceeds `TOTAL_STEPS` (= 10);
at arrival it is exactly 10; the `max 0` clamp in `stepsRemaining` is never
needed (the unclamped value `10 - steps` is already nonnegative); and the
only configured checkpoint snaps to step 5. -/
theorem c10_steps_bounded : ∀ evs : List Event,
    (runSession evs).steps ≤ TOTAL_STEPS ∧
    ((runSession evs).navState = NavState.arrived → (runSession evs).steps = TOTAL_STEPS) ∧
    stepsRemaining (runSession evs) = (TOTAL_STEPS : ℤ) - ((runSession evs).steps : ℤ) ∧
    BEACON_CHECKPOINTS
      = [{ name := "Memora-Hallway", step_checkpoint := 5, proximity_m := 3 / 2 }] := by
  intro evs
  have hg := goodState_run evs
  refine ⟨hg.1, fun h => le_antisymm hg.1 (hg.2.mp h), ?_, rfl⟩
  unfold stepsRemaining
  have hle := hg.1
  simp only [TOTAL_STEPS] at hle ⊢
  omega

/-- C10 witness: the arrival clause on the concrete ten-step trace. -/
theorem c10_steps_bounded_witness : (runSession trFull).steps = TOTAL_STEPS :=
  (c10_steps_bounded trFull).2.1 (by with_unfolding_all decide)

/-- C1 (code bug): an observation with `rssi = 0` gets the sentinel distance
`-1`, but the drift-correction guard is `beacon.distance < proximity_m`
(`-1 < 1.5` holds), so the sentinel is **not** excluded: while `NAVIGATING`
with `steps = 2`, a matching observation with `rssi = 0` snaps the step count
to 5 instead of leaving it unchanged — for every interpretation `tenPow` of
the far-field power function. -/
theorem c1_sentinel_not_excluded : ∀ tenPow : ℚ → ℚ,
    estimateDistanceWith tenPow 0 = -1 ∧
    (processEvent
        { navState := NavState.navigating, steps := 2, lastStepTime := 0,
          isPotentialStep := false, isCalibrated := true }
        (Event.beacons [⟨"b0", some "Memora-Hallway", 0, estimateDistanceWith tenPow 0⟩])).steps
      = 5 := by
  intro tenPow
  have h0 : estimateDistanceWith tenPow 0 = -1 := by
    unfold estimateDistanceWith
    rw [if_pos rfl]
  refine ⟨h0, ?_⟩
  rw [h0]
  with_unfolding_all decide

/-- C9: for the calibration tracker, (a) with headings in `[0, 360)` every
recorded sector lies in `{0, …, 11}`; (b) six distinct sectors give progress
`1/2`; (c) the completion signal fires at most once along any sample stream;
(d) when every sector of `{0, …, 11}` is observed (any order, duplicates
ignored) progress is exactly 1 and completion fires exactly once; (e) the
skip affordance appears after a 7000 ms delay. -/
theorem c9_calibration : ∀ hs : List ℚ,
    ((∀ h ∈ hs, 0 ≤ h ∧ h < 360) → ∀ i ∈ calRun ∅ hs, 0 ≤ i ∧ i < 12) ∧
    calProgress (calRun ∅ [0, 30, 60, 90, 120, 150]) = 1 / 2 ∧
    (∀ cov : Finset ℤ, completionFirings cov hs ≤ 1) ∧
    ((∀ h ∈ hs, 0 ≤ h ∧ h < 360) →
      (∀ i ∈ Finset.Icc (0 : ℤ) 11, ∃ h ∈ hs, sector h = i) →
      calProgress (calRun ∅ hs) = 1 ∧ completionFirings ∅ hs = 1) ∧
    CAL_SKIP_DELAY_MS = 7000 := by
  intro hs
  refine ⟨?_, by with_unfolding_all decide, ?_, ?_, rfl⟩
  · intro hrange
    exact calRun_forall hs (fun i => 0 ≤ i ∧ i < 12) ∅
      (fun h hh => sector_bound (hrange h hh).1 (hrange h hh).2) (by simp)
  · intro cov
    rw [completionFirings_eq]
    split <;> omega
  · intro hrange hcov
    have hSeq : calRun ∅ hs = Finset.Icc (0 : ℤ) 11 := by
      apply Finset.Subset.antisymm
      · intro i hi
        obtain ⟨hb1, hb2⟩ := calRun_forall hs (fun i => 0 ≤ i ∧ i < 12) ∅
          (fun h hh => sector_bound (hrange h hh).1 (hrange h hh).2) (by simp) i hi
        exact Finset.mem_Icc.mpr ⟨hb1, by omega⟩
      · intro i hi
        obtain ⟨h, hh, hsec⟩ := hcov i hi
        exact mem_calRun hs ∅ i (Or.inr ⟨h, hh, hsec⟩)
    have hcard : (calRun ∅ hs).card = 12 := by
      rw [hSeq, Int.card_Icc]
      rfl
    have hfinal : calComplete (calRun ∅ hs) := by
      unfold calComplete calProgress
      rw [hcard]
      norm_num [TOTAL_SEGMENTS]
    constructor
    · unfold calProgress
      rw [hcard]
      norm_num [TOTAL_SEGMENTS]
    · have hempty : ¬calComplete (∅ : Finset ℤ) := by
        unfold calComplete calProgress
        norm_num [TOTAL_SEGMENTS]
      rw [completionFirings_eq, if_pos ⟨hfinal, hempty⟩]

/-- C9 witness: a stream visiting all twelve sectors in order, with repeats,
yields progress 1 and exactly one completion firing; the in-range clause
instantiated on the same stream. -/
theorem c9_calibration_witness :
    (calProgress (calRun ∅ [0, 30, 60, 90, 120, 150, 180, 210, 240, 270, 300, 330, 15, 15]) = 1
      ∧ completionFirings ∅ [0, 30, 60, 90, 120, 150, 180, 210, 240, 270, 300, 330, 15, 15] = 1) ∧
    (∀ i ∈ calRun ∅ [0, 30, 60, 90, 120, 150, 180, 210, 240, 270, 300, 330, 15, 15],
      0 ≤ i ∧ i < 12) := by
  constructor
  · exact (c9_calibration [0, 30, 60, 90, 120, 150, 180, 210, 240, 270, 300, 330, 15, 15]).2.2.2.1
      (by with_unfolding_all decide) (by with_unfolding_all decide)
  · exact (c9_calibration [0, 30, 60, 90, 120, 150, 180, 210, 240, 270, 300, 330, 15, 15]).1
      (by with_unfolding_all decide)

/-! ## Heading-smoothing helper lemmas (circular mean) -/

/-- `Math.atan2 (r sin θ) (r cos θ) = θ` for `r > 0` and `θ ∈ (-π, π]`. -/
theorem arg_ofReal_cos_sin (r θ : ℝ) {x y : ℝ} (hr : 0 < r) (hx : x = r * Real.cos θ)
    (hy : y = r * Real.sin θ) (hθ1 : -Real.pi < θ) (hθ2 : θ ≤ Real.pi) :
    Complex.arg ((x : ℂ) + (y : ℂ) * Complex.I) = θ := by
  subst hx hy
  have hcast : ((r * Real.cos θ : ℝ) : ℂ) + ((r * Real.sin θ : ℝ) : ℂ) * Complex.I
      = (r : ℂ) * (Complex.cos (θ : ℂ) + Complex.sin (θ : ℂ) * Complex.I) := by
    rw [← Complex.ofReal_cos, ← Complex.ofReal_sin]
    push_cast
    ring
  rw [hcast, Complex.arg_real_mul _ hr, Complex.arg_cos_add_sin_mul_I ⟨hθ1, hθ2⟩]

/-- If the summed unit vectors of a non-empty buffer point in direction `θ`
(with positive magnitude `c`), the smoothed value is `θ` in degrees,
wrapped by `+360` when negative. -/
theorem smoothedValue_eq_angle (buf : List ℚ) (θ c : ℝ) (hbuf : buf ≠ []) (hc : 0 < c)
    (hx : (buf.map (fun a : ℚ => Real.cos ((a : ℝ) * Real.pi / 180))).sum = c * Real.cos θ)
    (hy : (buf.map (fun a : ℚ => Real.sin ((a : ℝ) * Real.pi / 180))).sum = c * Real.sin θ)
    (hθ1 : -Real.pi < θ) (hθ2 : θ ≤ Real.pi) :
    smoothedValue buf
      = if θ * 180 / Real.pi < 0 then θ * 180 / Real.pi + 360 else θ * 180 / Real.pi := by
  unfold smoothedValue
  dsimp only
  have hlen : (0 : ℝ) < (buf.length : ℝ) := by
    have hne : buf.length ≠ 0 := fun h0 => hbuf (List.length_eq_zero.mp h0)
    exact_mod_cast Nat.pos_of_ne_zero hne
  rw [hx, hy,
    arg_ofReal_cos_sin (c / (buf.length : ℝ)) θ (div_pos hc hlen) (by ring) (by ring) hθ1 hθ2]

/-- Dividing both summed components by the (positive) buffer length does not
change the angle: the average-based value of the source equals the
sum-based circular mean of the spec. -/
theorem smoothedValue_eq_spec (buf : List ℚ) (hbuf : buf ≠ []) :
    smoothedValue buf = circularMeanSpec buf := by
  unfold smoothedValue circularMeanSpec
  dsimp only
  have hlen : (0 : ℝ) < (buf.length : ℝ) := by
    have hne : buf.length ≠ 0 := fun h0 => hbuf (List.length_eq_zero.mp h0)
    exact_mod_cast Nat.pos_of_ne_zero hne
  have key : ∀ Sx Sy : ℝ,
      Complex.arg (((Sx / (buf.length : ℝ) : ℝ) : ℂ) + ((Sy / (buf.length : ℝ) : ℝ) : ℂ) * Complex.I)
        = Complex.arg ((Sx : ℂ) + (Sy : ℂ) * Complex.I) := by
    intro Sx Sy
    have hmul : (((Sx / (buf.length : ℝ) : ℝ) : ℂ) + ((Sy / (buf.length : ℝ) : ℝ) : ℂ) * Complex.I)
        = ((((buf.length : ℝ))⁻¹ : ℝ) : ℂ) * ((Sx : ℂ) + (Sy : ℂ) * Complex.I) := by
      push_cast
      ring
    rw [hmul, Complex.arg_real_mul _ (inv_pos.mpr hlen)]
  rw [key]

/-- The smoothed value always lies in `[0, 360)`. -/
theorem smoothedValue_range (buf : List ℚ) :
    0 ≤ smoothedValue buf ∧ smoothedValue buf < 360 := by
  unfold smoothedValue
  dsimp only
  have key : ∀ w : ℂ,
      0 ≤ (if Complex.arg w * 180 / Real.pi < 0 then Complex.arg w * 180 / Real.pi + 360
            else Complex.arg w * 180 / Real.pi) ∧
      (if Complex.arg w * 180 / Real.pi < 0 then Complex.arg w * 180 / Real.pi + 360
        else Complex.arg w * 180 / Real.pi) < 360 := by
    intro w
    have h1 := Complex.arg_le_pi w
    have h2 := Complex.neg_pi_lt_arg w
    have hπ := Real.pi_pos
    have hub : Complex.arg w * 180 / Real.pi ≤ 180 := by
      rw [div_le_iff hπ]
      nlinarith
    have hlb : -180 < Complex.arg w * 180 / Real.pi := by
      rw [lt_div_iff hπ]
      nlinarith
    split_ifs with h
    · constructor <;> linarith
    · exact ⟨not_lt.mp h, by linarith⟩
  exact key _

/-- Pushing the constant sample `h` onto a buffer of `k ≤ 10` copies of `h`
yields `min (k+1) 10` copies: the wrap-reset check compares `h` with the
arithmetic mean `h` (difference 0), and the shift drops back to capacity. -/
theorem pushHeading_replicate (k : ℕ) (h : ℚ) (hk : k ≤ 10) :
    pushHeading (List.replicate k h) h = List.replicate (min (k + 1) 10) h := by
  unfold pushHeading
  dsimp only
  have hcond : ¬((List.replicate k h).length ≠ 0 ∧
      180 < |h - (List.replicate k h).sum / ((List.replicate k h).length : ℚ)|) := by
    rintro ⟨hk0, habs⟩
    rw [List.length_replicate] at hk0
    have hkQ : ((k : ℕ) : ℚ) ≠ 0 := by exact_mod_cast hk0
    rw [List.sum_replicate, List.length_replicate, nsmul_eq_mul,
      mul_div_cancel_left₀ _ hkQ] at habs
    simp at habs
    exact absurd habs (by norm_num)
  rw [if_neg hcond, ← List.replicate_succ']
  by_cases h10 : HEADING_SMOOTHING_BUFFER_SIZE < (List.replicate (k + 1) h).length
  · rw [if_pos h10]
    have hk10 : k = 10 := by
      rw [List.length_replicate] at h10
      simp [HEADING_SMOOTHING_BUFFER_SIZE] at h10
      omega
    subst hk10
    rw [List.replicate_succ, List.tail_cons]
    have hmin : min (10 + 1) 10 = 10 := by omega
    rw [hmin]
  · rw [if_neg h10]
    rw [List.length_replicate] at h10
    simp [HEADING_SMOOTHING_BUFFER_SIZE] at h10
    have hmin : min (k + 1) 10 = k + 1 := by omega
    rw [hmin]

theorem feed_replicate_aux (M : ℕ) : ∀ (k : ℕ) (h : ℚ), k ≤ 10 →
    List.foldl pushHeading (List.replicate k h) (List.replicate M h)
      = List.replicate (min (k + M) 10) h := by
  induction M with
  | zero =>
      intro k h hk
      rw [List.replicate_zero, List.foldl_nil]
      have hmin : min (k + 0) 10 = k := by omega
      rw [hmin]
  | succ M ih =>
      intro k h hk
      rw [List.replicate_succ, List.foldl_cons, pushHeading_replicate k h hk,
        ih (min (k + 1) 10) h (by omega)]
      have hmin : min (min (k + 1) 10 + M) 10 = min (k + (M + 1)) 10 := by omega
      rw [hmin]

/-- Feeding the same sample `M` times into an empty buffer leaves
`min M 10` copies of it. -/
theorem feed_replicate (M : ℕ) (h : ℚ) :
    feedHeadings [] (List.replicate M h)
      = List.replicate (min M HEADING_SMOOTHING_BUFFER_SIZE) h := by
  have haux := feed_replicate_aux M 0 h (by omega)
  rw [List.replicate_zero] at haux
  unfold feedHeadings
  rw [haux]
  have hmin : min (0 + M) 10 = min M HEADING_SMOOTHING_BUFFER_SIZE := by
    simp [HEADING_SMOOTHING_BUFFER_SIZE]
  rw [hmin]

/-- The circular mean of `M ≥ 1` copies of a heading `h ∈ [0, 360)` is
exactly `h`. -/
theorem smoothedValue_replicate (M : ℕ) (h : ℚ) (hM : 1 ≤ M) (h0 : 0 ≤ h) (h360 : h < 360) :
    smoothedValue (List.replicate M h) = (h : ℝ) := by
  have hpi := Real.pi_pos
  have hh0 : (0 : ℝ) ≤ (h : ℝ) := by exact_mod_cast h0
  have hh360 : (h : ℝ) < 360 := by exact_mod_cast h360
  have hθ0 : 0 ≤ (h : ℝ) * Real.pi / 180 := by positivity
  have hθlt : (h : ℝ) * Real.pi / 180 < 2 * Real.pi := by
    rw [div_lt_iff (by norm_num : (0 : ℝ) < 180)]
    nlinarith
  have hMpos : (0 : ℝ) < (M : ℝ) := by
    have hM0 : 0 < M := hM
    exact_mod_cast hM0
  have hne : List.replicate M h ≠ [] :=
    List.ne_nil_of_length_pos (by simpa using (show 0 < M from hM))
  have hmx : ((List.replicate M h).map (fun a : ℚ => Real.cos ((a : ℝ) * Real.pi / 180))).sum
      = (M : ℝ) * Real.cos ((h : ℝ) * Real.pi / 180) := by
    rw [List.map_replicate, List.sum_replicate, nsmul_eq_mul]
  have hmy : ((List.replicate M h).map (fun a : ℚ => Real.sin ((a : ℝ) * Real.pi / 180))).sum
      = (M : ℝ) * Real.sin ((h : ℝ) * Real.pi / 180) := by
    rw [List.map_replicate, List.sum_replicate, nsmul_eq_mul]
  rcases le_or_lt ((h : ℝ) * Real.pi / 180) Real.pi with hle | hgt
  · rw [smoothedValue_eq_angle (List.replicate M h) ((h : ℝ) * Real.pi / 180) (M : ℝ)
      hne hMpos hmx hmy (by linarith) hle]
    have hdeg : (h : ℝ) * Real.pi / 180 * 180 / Real.pi = (h : ℝ) := by
      field_simp
    rw [hdeg, if_neg (not_lt.mpr hh0)]
  · have hmx' : ((List.replicate M h).map (fun a : ℚ => Real.cos ((a : ℝ) * Real.pi / 180))).sum
        = (M : ℝ) * Real.cos ((h : ℝ) * Real.pi / 180 - 2 * Real.pi) := by
      rw [hmx, Real.cos_sub_two_pi]
    have hmy' : ((List.replicate M h).map (fun a : ℚ => Real.sin ((a : ℝ) * Real.pi / 180))).sum
        = (M : ℝ) * Real.sin ((h : ℝ) * Real.pi / 180 - 2 * Real.pi) := by
      rw [hmy, Real.sin_sub_two_pi]
    rw [smoothedValue_eq_angle (List.replicate M h)
      ((h : ℝ) * Real.pi / 180 - 2 * Real.pi) (M : ℝ)
      hne hMpos hmx' hmy' (by linarith) (by linarith)]
    have hdeg : ((h : ℝ) * Real.pi / 180 - 2 * Real.pi) * 180 / Real.pi = (h : ℝ) - 360 := by
      field_simp
      ring
    rw [hdeg, if_pos (by linarith)]
    ring

/-- The circular mean of the buffer `[0, 90]` is the bisector `45`. -/
theorem smoothedValue_pair : smoothedValue [0, 90] = 45 := by
  have hpi := Real.pi_pos
  have h2 : Real.sqrt 2 ^ 2 = 2 := Real.sq_sqrt (by norm_num)
  have hc2 : (0 : ℝ) < Real.sqrt 2 := Real.sqrt_pos.mpr (by norm_num)
  have e0 : (((0 : ℚ) : ℝ)) * Real.pi / 180 = 0 := by push_cast; ring
  have e90 : (((90 : ℚ) : ℝ)) * Real.pi / 180 = Real.pi / 2 := by push_cast; ring
  have hx : (([0, 90] : List ℚ).map (fun a : ℚ => Real.cos ((a : ℝ) * Real.pi / 180))).sum
      = Real.sqrt 2 * Real.cos (Real.pi / 4) := by
    simp only [List.map_cons, List.map_nil, List.sum_cons, List.sum_nil, e0, e90]
    rw [Real.cos_zero, Real.cos_pi_div_two, Real.cos_pi_div_four]
    linear_combination -h2 / 2
  have hy : (([0, 90] : List ℚ).map (fun a : ℚ => Real.sin ((a : ℝ) * Real.pi / 180))).sum
      = Real.sqrt 2 * Real.sin (Real.pi / 4) := by
    simp only [List.map_cons, List.map_nil, List.sum_cons, List.sum_nil, e0, e90]
    rw [Real.sin_zero, Real.sin_pi_div_two, Real.sin_pi_div_four]
    linear_combination -h2 / 2
  rw [smoothedValue_eq_angle [0, 90] (Real.pi / 4) (Real.sqrt 2) (by simp) hc2 hx hy
    (by linarith) (by linarith)]
  have hdeg : Real.pi / 4 * 180 / Real.pi = 45 := by
    field_simp
    ring
  rw [hdeg, if_neg (by norm_num)]

/-! ## Claim theorems: heading smoothing -/

/-- C7 (counterexample): the heading smoothing buffer is **not** freshly
allocated per session.  After a previous session fed the sample 0° into the
module-scope buffer, a newly created session starts with buffer `[0]` — not
`[]` — and its first smoothed output on the sample 90° is 45 (the circular
mean of the samples of both sessions) instead of the 90 a fresh buffer yields. -/
theorem c7_shared_buffer_cex :
    newSessionBuffer (pushHeading [] 0) = [0] ∧ ([0] : List ℚ) ≠ [] ∧
    smoothedValue (pushHeading (newSessionBuffer (pushHeading [] 0)) 90) = 45 ∧
    smoothedValue (pushHeading [] 90) = 90 ∧ (45 : ℝ) ≠ 90 := by
  have hp1 : pushHeading ([] : List ℚ) 0 = [0] := by with_unfolding_all decide
  have hp2 : pushHeading [(0 : ℚ)] 90 = [0, 90] := by with_unfolding_all decide
  have hp3 : pushHeading ([] : List ℚ) 90 = [90] := by with_unfolding_all decide
  refine ⟨by unfold newSessionBuffer; exact hp1, by simp, ?_, ?_, by norm_num⟩
  · unfold newSessionBuffer
    rw [hp1, hp2]
    exact smoothedValue_pair
  · rw [hp3, show [(90 : ℚ)] = List.replicate 1 90 from rfl]
    have h90 := smoothedValue_replicate 1 90 (by norm_num) (by norm_num) (by norm_num)
    rw [h90]
    norm_num

/-- C7 (amended): the heading smoothing buffer is module-scope state shared
across sessions — creating a new session leaves the buffer exactly as the
previous session left it, so the smoothed output of a new session can depend
on samples fed by the previous session: with leftover buffer `[0]`, the first output
on 90° is 45; with a fresh buffer it is 90. -/
theorem c7_shared_buffer :
    (∀ buf : List ℚ, newSessionBuffer buf = buf) ∧
    smoothedValue (pushHeading [0] 90) = 45 ∧
    smoothedValue (pushHeading [] 90) = 90 ∧ (45 : ℝ) ≠ 90 := by
  have hp2 : pushHeading [(0 : ℚ)] 90 = [0, 90] := by with_unfolding_all decide
  have hp3 : pushHeading ([] : List ℚ) 90 = [90] := by with_unfolding_all decide
  refine ⟨fun _ => rfl, ?_, ?_, by norm_num⟩
  · rw [hp2]
    exact smoothedValue_pair
  · rw [hp3, show [(90 : ℚ)] = List.replicate 1 90 from rfl]
    have h90 := smoothedValue_replicate 1 90 (by norm_num) (by norm_num) (by norm_num)
    rw [h90]
    norm_num

/-- C8: for the heading filter, (a) on a non-empty buffer the output equals
the sum-based circular mean of the spec and lies in `[0, 360)`; (b) fed the same
heading `h ∈ [0, 360)` `N ≥ 1` times from an empty buffer it outputs exactly
`h`; (c) a new sample differing from the arithmetic mean of the buffer by more
than 180° resets the buffer to just that sample; (d) alternating samples
359°/1° keep resetting the buffer, so the output stays at the last sample
(359 or 1), near 0°/360°, not 180°; (e) the buffer never exceeds 10
samples. -/
theorem c8_heading_filter :
    (∀ buf : List ℚ, buf ≠ [] →
      smoothedValue buf = circularMeanSpec buf ∧
      0 ≤ smoothedValue buf ∧ smoothedValue buf < 360) ∧
    (∀ (M : ℕ) (h : ℚ), 1 ≤ M → 0 ≤ h → h < 360 →
      smoothedValue (feedHeadings [] (List.replicate M h)) = (h : ℝ)) ∧
    (∀ (buf : List ℚ) (h : ℚ), buf ≠ [] →
      180 < |h - buf.sum / (buf.length : ℚ)| → pushHeading buf h = [h]) ∧
    (feedHeadings [] [359, 1] = [1] ∧ smoothedValue (feedHeadings [] [359, 1]) = 1 ∧
      feedHeadings [] [359, 1, 359] = [359] ∧
      smoothedValue (feedHeadings [] [359, 1, 359]) = 359) ∧
    (∀ (buf : List ℚ) (h : ℚ), buf.length ≤ HEADING_SMOOTHING_BUFFER_SIZE →
      (pushHeading buf h).length ≤ HEADING_SMOOTHING_BUFFER_SIZE) := by
  have hconst : ∀ (M : ℕ) (h : ℚ), 1 ≤ M → 0 ≤ h → h < 360 →
      smoothedValue (feedHeadings [] (List.replicate M h)) = (h : ℝ) := by
    intro M h hM h0 h360
    rw [feed_replicate]
    exact smoothedValue_replicate _ h (by simp [HEADING_SMOOTHING_BUFFER_SIZE]; omega) h0 h360
  refine ⟨fun buf hbuf => ⟨smoothedValue_eq_spec buf hbuf, smoothedValue_range buf⟩,
    hconst, ?_, ?_, ?_⟩
  · intro buf h hbuf habs
    unfold pushHeading
    dsimp only
    have hcond : buf.length ≠ 0 ∧ 180 < |h - buf.sum / (buf.length : ℚ)| :=
      ⟨fun h0 => hbuf (List.length_eq_zero.mp h0), habs⟩
    rw [if_pos hcond]
    simp [HEADING_SMOOTHING_BUFFER_SIZE]
  · have hf1 : feedHeadings [] [(359 : ℚ), 1] = [1] := by with_unfolding_all decide
    have hf2 : feedHeadings [] [(359 : ℚ), 1, 359] = [359] := by with_unfolding_all decide
    refine ⟨hf1, ?_, hf2, ?_⟩
    · rw [hf1, show [(1 : ℚ)] = List.replicate 1 1 from rfl,
        smoothedValue_replicate 1 1 (by norm_num) (by norm_num) (by norm_num)]
      norm_num
    · rw [hf2, show [(359 : ℚ)] = List.replicate 1 359 from rfl,
        smoothedValue_replicate 1 359 (by norm_num) (by norm_num) (by norm_num)]
      norm_num
  · intro buf h hlen
    unfold pushHeading
    dsimp only
    by_cases hc : buf.length ≠ 0 ∧ 180 < |h - buf.sum / (buf.length : ℚ)|
    · rw [if_pos hc]
      simp [HEADING_SMOOTHING_BUFFER_SIZE]
    · rw [if_neg hc]
      by_cases h10 : HEADING_SMOOTHING_BUFFER_SIZE < (buf ++ [h]).length
      · rw [if_pos h10]
        simp only [HEADING_SMOOTHING_BUFFER_SIZE, List.length_tail, List.length_append,
          List.length_singleton] at h10 hlen ⊢
        omega
      · rw [if_neg h10]
        simp only [HEADING_SMOOTHING_BUFFER_SIZE, List.length_append,
          List.length_singleton] at h10 hlen ⊢
        omega

/-- C8 witness: the constant-input, wrap-reset and capacity clauses
instantiated on concrete buffers. -/
theorem c8_heading_filter_witness :
    smoothedValue (feedHeadings [] (List.replicate 3 90)) = ((90 : ℚ) : ℝ) ∧
    pushHeading [200] 5 = [5] ∧
    (pushHeading [] 5).length ≤ HEADING_SMOOTHING_BUFFER_SIZE ∧
    smoothedValue [7] = circularMeanSpec [7] := by
  refine ⟨c8_heading_filter.2.1 3 90 (by decide) (by with_unfolding_all decide)
      (by with_unfolding_all decide),
    c8_heading_filter.2.2.1 [200] 5 (by with_unfolding_all decide)
      (by with_unfolding_all decide),
    c8_heading_filter.2.2.2.2 [] 5 (by with_unfolding_all decide),
    (c8_heading_filter.1 [7] (by with_unfolding_all decide)).1⟩

end Memora
